import Mathlib

/-!
Verification of the core of a desktop gallery application (Rust sources:
`file.rs`, `state.rs`, `viewer.rs`, `renderer.rs`, `selector.rs`).

The development shallowly embeds the program: files are lists of byte
values (`Nat`s below 256 where it matters), `seek` + `read_exact` becomes
slicing guarded by an in-bounds test (a failed `read_exact` panics in the
source, which we model as `none`), machine integers become `Nat` with
explicit little-endian byte encodings, and the fallible `FileContainer`
constructor returns an `Option`.
-/

namespace Gallery

/-- Value of a little-endian byte list (least significant byte first). -/
def leVal : List Nat → Nat
  | [] => 0
  | b :: bs => b + 256 * leVal bs

/-- The four little-endian bytes of a `u32` value `n` (for `n < 2 ^ 32`). -/
def u32leBytes (n : Nat) : List Nat :=
  [n % 256, n / 256 % 256, n / 256 ^ 2 % 256, n / 256 ^ 3 % 256]

/-- The eight little-endian bytes of a `u64` value `n` (for `n < 2 ^ 64`). -/
def u64leBytes (n : Nat) : List Nat :=
  [n % 256, n / 256 % 256, n / 256 ^ 2 % 256, n / 256 ^ 3 % 256,
   n / 256 ^ 4 % 256, n / 256 ^ 5 % 256, n / 256 ^ 6 % 256, n / 256 ^ 7 % 256]

/-- Model of `seek(SeekFrom::Start(pos))` followed by `read_exact` of `len`
bytes on a file whose contents are `file`: the slice `[pos, pos + len)` when
it lies inside the file, `none` (the source panics via `unwrap`) otherwise. -/
def readBytesAt (file : List Nat) (pos len : Nat) : Option (List Nat) :=
  if pos + len ≤ file.length then some ((file.drop pos).take len) else none

/-- The 4-byte magic literal `b"ofc\x00"` checked by `FileContainer::open`. -/
def ofcMagic : List Nat := [111, 102, 99, 0]

/-- Model of `offsets_buf.chunks_exact(8)` followed by `u64::from_le_bytes`
on each chunk: decode consecutive 8-byte little-endian groups, dropping any
trailing group shorter than 8 bytes, exactly as `chunks_exact` does. -/
def parseOffsets : List Nat → List Nat
  | b0 :: b1 :: b2 :: b3 :: b4 :: b5 :: b6 :: b7 :: rest =>
      leVal [b0, b1, b2, b3, b4, b5, b6, b7] :: parseOffsets rest
  | _ => []

/-- Embedding of `FileContainer` (`file.rs`): the open file handle is
represented by the file contents `f`; `end_offsets` is the decoded
cumulative end-offset table. -/
structure FileContainer where
  f : List Nat
  end_offsets : List Nat
deriving DecidableEq, Repr

/-- Embedding of `FileContainer::open` (`file.rs` lines 13-34). Reads the
8-byte header (magic plus little-endian `u32` entry count), then `8 * N`
bytes of offsets. Every `unwrap`/`assert_eq` panic in the source (missing
file, short read, bad magic) is modelled as `none`; a path is identified
with the contents of the file it names. -/
def FileContainer.openc (p : List Nat) : Option FileContainer :=
  match readBytesAt p 0 8 with
  | none => none
  | some buf =>
    if buf.take 4 = ofcMagic then
      let num_files := leVal (buf.drop 4)
      match readBytesAt p 8 (8 * num_files) with
      | none => none
      | some offsets_buf => some { f := p, end_offsets := parseOffsets offsets_buf }
    else none

/-- Embedding of `FileContainer::len`. -/
def FileContainer.len (c : FileContainer) : Nat :=
  c.end_offsets.length

/-- Embedding of `FileContainer::read_at` (`file.rs` lines 36-63). The
`assert!(i < self.len())` is modelled as `none` on violation; for `i = 0`
it reads `end_offsets[0]` bytes at `8 + 8 * len`, otherwise
`end_offsets[i] - end_offsets[i - 1]` bytes at `8 + 8 * len +
end_offsets[i - 1]` (the subtraction is on `u64` in the source; every
theorem below only uses it on monotone offset tables, where truncated
subtraction agrees). -/
def FileContainer.read_at (c : FileContainer) (i : Nat) : Option (List Nat) :=
  if i < c.len then
    if i = 0 then
      readBytesAt c.f (8 + 8 * c.len) (c.end_offsets.getD 0 0)
    else
      readBytesAt c.f (8 + 8 * c.len + c.end_offsets.getD (i - 1) 0)
        (c.end_offsets.getD i 0 - c.end_offsets.getD (i - 1) 0)
  else none

/-- Embedding of `load_image_bytes` (`selector.rs` lines 224-245): read the
first 16 bytes (magic, entry count, first end-offset), seek past the offset
table and read `end_offset` bytes — the optimized cover loader. -/
def load_image_bytes (p : List Nat) : Option (List Nat) :=
  match readBytesAt p 0 16 with
  | none => none
  | some buf =>
    if buf.take 4 = ofcMagic then
      let num_files := leVal ((buf.drop 4).take 4)
      let end_offset := leVal (buf.drop 8)
      readBytesAt p (8 + 8 * num_files) end_offset
    else none

/-- Cumulative end-offsets of a list of entry sizes:
`cumEnds [s0, s1, s2] = [s0, s0 + s1, s0 + s1 + s2]`. -/
def cumEnds : List Nat → List Nat
  | [] => []
  | s :: rest => s :: (cumEnds rest).map (s + ·)

/-- A container file built from the given entry payloads, following the
on-disk layout of the format: magic, little-endian `u32` count, the
cumulative end-offsets as little-endian `u64`s, then the concatenated
payloads. -/
def buildContainer (payloads : List (List Nat)) : List Nat :=
  ofcMagic ++ u32leBytes payloads.length ++
    (cumEnds (payloads.map List.length)).flatMap u64leBytes ++ payloads.flatten

/-- Embedding of `State` (`state.rs`, identical to `viewer.rs`s `Screen`):
the ordered archive paths (each identified with its file contents), the
index of the current path, the currently open container, and the index of
the current entry. The `width`/`height` fields of the source carry no
navigation state and are omitted; `show_progress` is kept. -/
structure State where
  paths : List (List Nat)
  pathIndex : Nat
  file : FileContainer
  entryIndex : Nat
  show_progress : Bool
deriving DecidableEq, Repr

/-- Embedding of `State::new`: opens `paths[0]` (the source `unwrap`s, so
failure — including an empty path list — is modelled as `none`) and starts
at container 0, entry 0. -/
def State.new (paths : List (List Nat)) : Option State :=
  (FileContainer.openc (paths.getD 0 [])).map fun c =>
    { paths := paths, pathIndex := 0, file := c, entryIndex := 0, show_progress := false }

/-- Embedding of `State::current_image_bytes`: reads the current entry.
The source takes `&mut self` only to move the file cursor; the logical
state is returned unchanged as the second component. -/
def State.current_image_bytes (s : State) : Option (List Nat) × State :=
  (s.file.read_at s.entryIndex, s)

/-- Embedding of `State::next_image` (`state.rs` lines 46-58). A failed
open panics in the source; the `Except.error` value records the state at
the moment of the panic — note the source increments `paths.index` before
the fallible open runs. -/
def State.next_image (s : State) : Except State State :=
  if s.entryIndex = s.file.len - 1 then
    if s.pathIndex = s.paths.length - 1 then
      .ok s
    else
      let s1 : State := { s with pathIndex := s.pathIndex + 1 }
      match FileContainer.openc (s1.paths.getD s1.pathIndex []) with
      | none => .error s1
      | some c => .ok { s1 with file := c, entryIndex := 0 }
  else
    .ok { s with entryIndex := s.entryIndex + 1 }

/-- Embedding of `State::previous_image` (`state.rs` lines 60-72): like
`next_image`, with the entry index reset to `new_len - 1` when crossing
back into the previous container. -/
def State.previous_image (s : State) : Except State State :=
  if s.entryIndex = 0 then
    if s.pathIndex = 0 then
      .ok s
    else
      let s1 : State := { s with pathIndex := s.pathIndex - 1 }
      match FileContainer.openc (s1.paths.getD s1.pathIndex []) with
      | none => .error s1
      | some c => .ok { s1 with file := c, entryIndex := c.len - 1 }
  else
    .ok { s with entryIndex := s.entryIndex - 1 }

/-- Embedding of `State::next_file` (`state.rs` lines 74-82). Note the
source decrements `paths.index` (the direction is swapped relative to the
name, as the spec records); entry index is reset to 0. -/
def State.next_file (s : State) : Except State State :=
  if s.pathIndex = 0 then
    .ok s
  else
    let s1 : State := { s with pathIndex := s.pathIndex - 1 }
    match FileContainer.openc (s1.paths.getD s1.pathIndex []) with
    | none => .error s1
    | some c => .ok { s1 with file := c, entryIndex := 0 }

/-- Embedding of `State::previous_file` (`state.rs` lines 84-92): the
source increments `paths.index`; entry index is reset to 0. -/
def State.previous_file (s : State) : Except State State :=
  if s.pathIndex = s.paths.length - 1 then
    .ok s
  else
    let s1 : State := { s with pathIndex := s.pathIndex + 1 }
    match FileContainer.openc (s1.paths.getD s1.pathIndex []) with
    | none => .error s1
    | some c => .ok { s1 with file := c, entryIndex := 0 }

/-- Runs one navigation step, keeping the recorded state when the step
panicked (used only to drive concrete executions). -/
def stepOr (op : State → Except State State) (s : State) : State :=
  match op s with
  | .ok t => t
  | .error t => t

/-- Embedding of `render_progress` (`renderer.rs` line 78 / `viewer.rs`
line 173): the number of progress dots is `index * 10 / len`. The source
divides without any `len == 0` check; integer division by zero panics in
Rust, which is modelled as `none`. The guard below is the panic semantics
of the `/` operator, not a test present in the source. -/
def renderProgressDots (index len : Nat) : Option Nat :=
  if len = 0 then none else some (index * 10 / len)

/-- Grid constants `NUM_COLUMNS = 4` and `NUM_ROWS = 3` (`selector.rs`). -/
def NUM_COLUMNS : Int := 4

/-- Grid constant `NUM_ROWS` (`selector.rs`). -/
def NUM_ROWS : Int := 3

/-- Embedding of `Ofc` (`selector.rs`): one selectable archive. The path
is an abstract identifier. -/
structure Ofc where
  path : Nat
  selected : Bool
deriving DecidableEq, Repr

/-- Embedding of the selector `Screen` (`selector.rs`). -/
structure SelScreen where
  ofcs : List Ofc
  page_index : Nat
deriving DecidableEq, Repr

/-- Embedding of `Screen::page_size` = `NUM_COLUMNS * NUM_ROWS` = 12. -/
def SelScreen.page_size : Nat := (NUM_COLUMNS * NUM_ROWS).toNat

/-- Embedding of `Screen::page_count` = `ofcs.len().div_ceil(page_size)`. -/
def SelScreen.page_count (s : SelScreen) : Nat :=
  (s.ofcs.length + SelScreen.page_size - 1) / SelScreen.page_size

/-- Embedding of `Screen::previous_page`: `saturating_sub(1)`. -/
def SelScreen.previous_page (s : SelScreen) : SelScreen :=
  { s with page_index := s.page_index - 1 }

/-- Embedding of `Screen::next_page`: `min(page_index + 1, page_count - 1)`
(the subtraction is on `usize`; all theorems below use it only with
`page_count ≥ 1`, where truncated subtraction agrees). -/
def SelScreen.next_page (s : SelScreen) : SelScreen :=
  { s with page_index := min (s.page_index + 1) (s.page_count - 1) }

/-- Column hit by a click at `x` in a viewport of width `w`, as computed by
`Screen::on_click`: `(x / w * NUM_COLUMNS).floor() as usize` (the
`as usize` cast of a float saturates below at 0, hence `Int.toNat`).
Real-valued `f64` arithmetic is embedded as exact rational arithmetic. -/
def clickCol (x : ℚ) (w : Int) : Nat :=
  (⌊x / (w : ℚ) * ((NUM_COLUMNS : Int) : ℚ)⌋).toNat

/-- Row hit by a click at `y` in a viewport of height `h`
(`(y / h * NUM_ROWS).floor() as usize`). -/
def clickRow (y : ℚ) (h : Int) : Nat :=
  (⌊y / (h : ℚ) * ((NUM_ROWS : Int) : ℚ)⌋).toNat

/-- The flat entry index computed by `Screen::on_click`:
`index_in_page = row * NUM_COLUMNS + col` and
`index = NUM_ROWS * NUM_COLUMNS * page_index + index_in_page`. -/
def SelScreen.clickIndex (s : SelScreen) (x y : ℚ) (w h : Int) : Nat :=
  (NUM_ROWS * NUM_COLUMNS).toNat * s.page_index +
    (clickRow y h * (NUM_COLUMNS).toNat + clickCol x w)

/-- Embedding of `Screen::on_click` (`selector.rs` lines 56-70): computes
the flat entry index from the click position and toggles that entry when
`get_mut` finds it, otherwise leaves the screen unchanged. -/
def SelScreen.on_click (s : SelScreen) (x y : ℚ) (w h : Int) : SelScreen :=
  match s.ofcs[s.clickIndex x y w h]? with
  | some ofc =>
      { s with ofcs := s.ofcs.set (s.clickIndex x y w h) { ofc with selected := !ofc.selected } }
  | none => s

/-- Sniffed image formats of `decode_image` / `render_frame`. -/
inductive ImageFormat
  | jpeg
  | png
  | webp
deriving DecidableEq, Repr

/-- JPEG signature bytes FF D8 FF. -/
def jpegSig : List Nat := [255, 216, 255]

/-- Eight-byte PNG signature. -/
def pngSig : List Nat := [137, 80, 78, 71, 13, 10, 26, 10]

/-- The bytes of `b"RIFF"`. -/
def riffSig : List Nat := [82, 73, 70, 70]

/-- The bytes of `b"WEBPVP"`. -/
def webpSig : List Nat := [87, 69, 66, 80, 86, 80]

/-- Model of the slice expression `&bytes[8..][..6]`: `none` when either
indexing would be out of bounds (a panic in the source). -/
def sliceAt (bytes : List Nat) (start len : Nat) : Option (List Nat) :=
  if start + len ≤ bytes.length then some ((bytes.drop start).take len) else none

/-- Embedding of the format sniffing shared by `decode_image`
(`selector.rs` lines 183-197), `render_frame` (`viewer.rs` lines 110-121)
and `renderer.rs` lines 15-26: JPEG, then PNG, then WebP — the WebP branch
first requires `bytes.len() > 14` (the length of `b"RIFF\x00\x00\x00\x00WEBPVP"`)
and only then compares `bytes[0..4]` with RIFF and `bytes[8..14]` with
WEBPVP; everything else panics with `unsupported file type` (`none`). -/
def classify (bytes : List Nat) : Option ImageFormat :=
  if bytes.take 3 = jpegSig then some .jpeg
  else if bytes.take 8 = pngSig then some .png
  else if 14 < bytes.length ∧ bytes.take 4 = riffSig ∧ sliceAt bytes 8 6 = some webpSig then
    some .webp
  else none

/-! Helper lemmas about the byte-level encodings. -/

theorem leVal_u32leBytes (n : Nat) (h : n < 2 ^ 32) : leVal (u32leBytes n) = n := by
  simp only [u32leBytes, leVal]
  norm_num
  omega

theorem leVal_u64leBytes (n : Nat) (h : n < 2 ^ 64) : leVal (u64leBytes n) = n := by
  simp only [u64leBytes, leVal]
  norm_num
  omega

theorem length_u32leBytes (n : Nat) : (u32leBytes n).length = 4 := rfl

theorem length_u64leBytes (n : Nat) : (u64leBytes n).length = 8 := rfl

theorem parseOffsets_u64le_cons (n : Nat) (rest : List Nat) :
    parseOffsets (u64leBytes n ++ rest) = leVal (u64leBytes n) :: parseOffsets rest := rfl

theorem length_flatMap_u64leBytes (offs : List Nat) :
    (offs.flatMap u64leBytes).length = 8 * offs.length := by
  induction offs with
  | nil => rfl
  | cons o rest ih =>
    simp only [List.flatMap_cons, List.length_append, length_u64leBytes, ih, List.length_cons]
    ring

theorem parseOffsets_flatMap (offs : List Nat) (h : ∀ o ∈ offs, o < 2 ^ 64) :
    parseOffsets (offs.flatMap u64leBytes) = offs := by
  induction offs with
  | nil => rfl
  | cons o rest ih =>
    simp only [List.flatMap_cons, parseOffsets_u64le_cons]
    rw [leVal_u64leBytes o (h o (by simp)), ih fun x hx => h x (by simp [hx])]

theorem length_cumEnds (l : List Nat) : (cumEnds l).length = l.length := by
  induction l with
  | nil => rfl
  | cons s rest ih => simp [cumEnds, ih]

theorem cumEnds_getD (l : List Nat) (i : Nat) (h : i < l.length) :
    (cumEnds l).getD i 0 = (l.take (i + 1)).sum := by
  induction l generalizing i with
  | nil => simp at h
  | cons s rest ih =>
    cases i with
    | zero => simp [cumEnds]
    | succ j =>
      have hj : j < rest.length := by simpa using h
      have hj' : j < (cumEnds rest).length := by rwa [length_cumEnds]
      simp only [cumEnds, List.getD_cons_succ, List.take_succ_cons, List.sum_cons]
      rw [List.getD_eq_getElem _ _ (by simpa using hj'), List.getElem_map,
        ← List.getD_eq_getElem _ 0 hj', ih j hj]

theorem mem_cumEnds_le_sum (l : List Nat) (o : Nat) (h : o ∈ cumEnds l) : o ≤ l.sum := by
  induction l generalizing o with
  | nil => simp [cumEnds] at h
  | cons s rest ih =>
    simp only [cumEnds, List.mem_cons, List.mem_map] at h
    rcases h with h | ⟨x, hx, rfl⟩
    · simp [h]
    · have := ih x hx
      simp only [List.sum_cons]
      omega

theorem buildContainer_length (ps : List (List Nat)) :
    (buildContainer ps).length = 8 + 8 * ps.length + (ps.map List.length).sum := by
  simp only [buildContainer, List.length_append, ofcMagic, List.length_cons, List.length_nil,
    length_u32leBytes, length_flatMap_u64leBytes, length_cumEnds, List.length_map,
    List.length_flatten]

theorem buildContainer_assoc (ps : List (List Nat)) :
    buildContainer ps = (ofcMagic ++ u32leBytes ps.length) ++
      ((cumEnds (ps.map List.length)).flatMap u64leBytes ++ ps.flatten) := by
  simp [buildContainer, List.append_assoc]

theorem length_magic_u32 (ps : List (List Nat)) :
    (ofcMagic ++ u32leBytes ps.length).length = 8 := by
  simp [ofcMagic, length_u32leBytes]

theorem buildContainer_take8 (ps : List (List Nat)) :
    (buildContainer ps).take 8 = ofcMagic ++ u32leBytes ps.length := by
  rw [buildContainer_assoc, ← length_magic_u32 ps, List.take_left]

theorem buildContainer_drop8 (ps : List (List Nat)) :
    (buildContainer ps).drop 8 =
      (cumEnds (ps.map List.length)).flatMap u64leBytes ++ ps.flatten := by
  rw [buildContainer_assoc, ← length_magic_u32 ps, List.drop_left]

theorem cumEnds_bound (ps : List (List Nat)) (hsum : (ps.map List.length).sum < 2 ^ 64) :
    ∀ o ∈ cumEnds (ps.map List.length), o < 2 ^ 64 := fun o ho =>
  Nat.lt_of_le_of_lt (mem_cumEnds_le_sum _ o ho) hsum

theorem openc_buildContainer (ps : List (List Nat))
    (hN : ps.length < 2 ^ 32) (hsum : (ps.map List.length).sum < 2 ^ 64) :
    FileContainer.openc (buildContainer ps) =
      some ⟨buildContainer ps, cumEnds (ps.map List.length)⟩ := by
  have hlen := buildContainer_length ps
  have h1 : readBytesAt (buildContainer ps) 0 8 = some ((buildContainer ps).take 8) := by
    simp only [readBytesAt, List.drop_zero]
    rw [if_pos (by omega)]
  have hmagic : (ofcMagic ++ u32leBytes ps.length).take 4 = ofcMagic := by
    rw [show (4 : Nat) = ofcMagic.length from rfl, List.take_left]
  have hnum : leVal ((ofcMagic ++ u32leBytes ps.length).drop 4) = ps.length := by
    rw [show (4 : Nat) = ofcMagic.length from rfl, List.drop_left, leVal_u32leBytes _ hN]
  have h2 : readBytesAt (buildContainer ps) 8 (8 * ps.length) =
      some ((cumEnds (ps.map List.length)).flatMap u64leBytes) := by
    simp only [readBytesAt]
    rw [if_pos (by omega), buildContainer_drop8]
    rw [show 8 * ps.length = ((cumEnds (ps.map List.length)).flatMap u64leBytes).length from by
      rw [length_flatMap_u64leBytes, length_cumEnds, List.length_map], List.take_left]
  simp only [FileContainer.openc, h1, buildContainer_take8, hmagic, if_pos, hnum, h2,
    parseOffsets_flatMap _ (cumEnds_bound ps hsum)]

theorem read_at_buildContainer (ps : List (List Nat))
    (i : Nat) (hi : i < ps.length) :
    FileContainer.read_at ⟨buildContainer ps, cumEnds (ps.map List.length)⟩ i =
      some (ps.getD i []) := by
  have hlenfile := buildContainer_length ps
  have hlen : (FileContainer.mk (buildContainer ps) (cumEnds (ps.map List.length))).len =
      ps.length := by
    simp [FileContainer.len, length_cumEnds]
  have hsizes : (ps.map List.length).length = ps.length := List.length_map _ _
  have htakei : ∀ j, ((ps.map List.length).take j).sum ≤ (ps.map List.length).sum := by
    intro j
    have := List.sum_take_add_sum_drop (ps.map List.length) j
    omega
  have hslice : ∀ start len, 8 + 8 * ps.length + start + len ≤ (buildContainer ps).length →
      readBytesAt (buildContainer ps) (8 + 8 * ps.length + start) len =
        some ((ps.flatten.drop start).take len) := by
    intro start len hb
    simp only [readBytesAt]
    rw [if_pos (by omega)]
    congr 1
    have h8N : (buildContainer ps).drop (8 + 8 * ps.length) = ps.flatten := by
      have hd8 := buildContainer_drop8 ps
      have hob : ((cumEnds (ps.map List.length)).flatMap u64leBytes).length =
          8 * ps.length := by
        rw [length_flatMap_u64leBytes, length_cumEnds, List.length_map]
      calc (buildContainer ps).drop (8 + 8 * ps.length)
          = ((buildContainer ps).drop 8).drop (8 * ps.length) := by
            rw [List.drop_drop]
        _ = ps.flatten := by rw [hd8, ← hob, List.drop_left]
    have hdrop : (buildContainer ps).drop (8 + 8 * ps.length + start) =
        ps.flatten.drop start := by
      calc (buildContainer ps).drop (8 + 8 * ps.length + start)
          = ((buildContainer ps).drop (8 + 8 * ps.length)).drop start := by
            rw [List.drop_drop]
        _ = ps.flatten.drop start := by rw [h8N]
    rw [hdrop]
  have hgetsize : (ps.map List.length).getD i 0 = (ps.getD i []).length := by
    rw [List.getD_eq_getElem _ _ (by omega : i < (ps.map List.length).length),
      List.getElem_map, List.getD_eq_getElem _ _ hi]
  have hdropcons : ps.drop i = ps.getD i [] :: ps.drop (i + 1) := by
    rw [List.getD_eq_getElem _ _ hi]
    exact List.drop_eq_getElem_cons hi
  have hentry : (ps.flatten.drop (((ps.map List.length).take i).sum)).take
      (ps.getD i []).length = ps.getD i [] := by
    rw [List.drop_sum_flatten ps i, hdropcons, List.flatten_cons]
    exact List.take_left _ _
  have hsum_succ : ((ps.map List.length).take (i + 1)).sum =
      ((ps.map List.length).take i).sum + (ps.getD i []).length := by
    rw [List.sum_take_succ _ i (by omega), ← hgetsize,
      List.getD_eq_getElem _ _ (by omega : i < (ps.map List.length).length)]
  have hb : 8 + 8 * ps.length + ((ps.map List.length).take i).sum +
      (ps.getD i []).length ≤ (buildContainer ps).length := by
    rw [hlenfile]
    have h2 := htakei (i + 1)
    omega
  rcases Nat.eq_zero_or_pos i with rfl | hpos
  · rw [show FileContainer.read_at ⟨buildContainer ps, cumEnds (ps.map List.length)⟩ 0 =
        readBytesAt (buildContainer ps) (8 + 8 * ps.length)
          ((cumEnds (ps.map List.length)).getD 0 0) from by
      simp [FileContainer.read_at, hlen, hi]]
    have hgd : (cumEnds (ps.map List.length)).getD 0 0 = (ps.getD 0 []).length := by
      rw [cumEnds_getD _ 0 (by omega)]
      simpa using hsum_succ
    rw [hgd]
    have hs := hslice (((ps.map List.length).take 0).sum) ((ps.getD 0 []).length) hb
    simp only [List.take_zero, List.sum_nil, Nat.add_zero] at hs
    rw [hs]
    simpa using hentry
  · have hii : ¬ i = 0 := by omega
    rw [show FileContainer.read_at ⟨buildContainer ps, cumEnds (ps.map List.length)⟩ i =
        readBytesAt (buildContainer ps)
          (8 + 8 * ps.length + (cumEnds (ps.map List.length)).getD (i - 1) 0)
          ((cumEnds (ps.map List.length)).getD i 0 -
            (cumEnds (ps.map List.length)).getD (i - 1) 0) from by
      simp only [FileContainer.read_at, hlen]
      rw [if_pos hi, if_neg hii]]
    have hgdprev : (cumEnds (ps.map List.length)).getD (i - 1) 0 =
        ((ps.map List.length).take i).sum := by
      rw [cumEnds_getD _ (i - 1) (by omega)]
      congr 2
      omega
    have hgdi : (cumEnds (ps.map List.length)).getD i 0 =
        ((ps.map List.length).take i).sum + (ps.getD i []).length := by
      rw [cumEnds_getD _ i (by omega), hsum_succ]
    rw [hgdprev, hgdi, Nat.add_sub_cancel_left, hslice _ _ hb, hentry]


theorem map_getD_range (ps : List (List Nat)) :
    ((List.range ps.length).map fun i => ps.getD i []) = ps := by
  apply List.ext_getElem
  · simp
  · intro i h1 h2
    simp [List.getD_eq_getElem?_getD, List.getElem?_eq_getElem h2]

/-- C1: a container file built from payloads of sizes `[s0, ..., s(N-1)]`
(magic, little-endian u32 count, cumulative little-endian u64 end-offsets,
concatenated payloads) opens successfully; `len()` is `N`; `read_at i`
returns exactly the `i`-th payload (the slice `[offsets[i-1], offsets[i])`
of the payload region); and the concatenation of all reads reproduces the
payload bytes with no gaps or overlaps. The two bounds are the
representability conditions of the header fields (`N` fits a u32, every
offset fits a u64). -/
theorem container_roundtrip (ps : List (List Nat))
    (hN : ps.length < 2 ^ 32) (hsum : (ps.map List.length).sum < 2 ^ 64) :
    ∃ c, FileContainer.openc (buildContainer ps) = some c ∧
      c.len = ps.length ∧
      (∀ i, i < ps.length → c.read_at i = some (ps.getD i [])) ∧
      (((List.range ps.length).map fun i => (c.read_at i).getD []).flatten = ps.flatten) := by
  refine ⟨⟨buildContainer ps, cumEnds (ps.map List.length)⟩,
    openc_buildContainer ps hN hsum, ?_, ?_, ?_⟩
  · simp [FileContainer.len, length_cumEnds]
  · exact fun i hi => read_at_buildContainer ps i hi
  · have hmap : ((List.range ps.length).map fun i =>
        ((FileContainer.mk (buildContainer ps) (cumEnds (ps.map List.length))).read_at i).getD [])
        = (List.range ps.length).map fun i => ps.getD i [] := by
      apply List.map_congr_left
      intro i hmem
      rw [read_at_buildContainer ps i (List.mem_range.mp hmem)]
      rfl
    rw [hmap, map_getD_range]

/-- C1 witness: the round-trip property instantiated on a concrete
three-entry container with payload sizes 2, 1, 3. -/
theorem container_roundtrip_witness :
    ([[10, 11], [12], [13, 14, 15]] : List (List Nat)).length < 2 ^ 32 ∧
      (([[10, 11], [12], [13, 14, 15]] : List (List Nat)).map List.length).sum < 2 ^ 64 ∧
      ∃ c, FileContainer.openc (buildContainer [[10, 11], [12], [13, 14, 15]]) = some c ∧
        c.len = 3 ∧
        (∀ i, i < 3 → c.read_at i = some (([[10, 11], [12], [13, 14, 15]] :
          List (List Nat)).getD i [])) ∧
        (((List.range 3).map fun i => (c.read_at i).getD []).flatten =
          ([[10, 11], [12], [13, 14, 15]] : List (List Nat)).flatten) := by
  refine ⟨by decide, by decide, ?_⟩
  exact container_roundtrip [[10, 11], [12], [13, 14, 15]] (by decide) (by decide)

theorem parseOffsets_eq_cons (l : List Nat) (h : 8 ≤ l.length) :
    parseOffsets l = leVal (l.take 8) :: parseOffsets (l.drop 8) := by
  rcases l with _ | ⟨b0, _ | ⟨b1, _ | ⟨b2, _ | ⟨b3, _ | ⟨b4, _ | ⟨b5, _ | ⟨b6, _ | ⟨b7, rest⟩⟩⟩⟩⟩⟩⟩⟩ <;>
    simp_all [parseOffsets]

theorem parseOffsets_short (l : List Nat) (h : l.length < 8) : parseOffsets l = [] := by
  rcases l with _ | ⟨b0, _ | ⟨b1, _ | ⟨b2, _ | ⟨b3, _ | ⟨b4, _ | ⟨b5, _ | ⟨b6, _ | ⟨b7, rest⟩⟩⟩⟩⟩⟩⟩⟩ <;>
    simp_all [parseOffsets]
  omega

theorem parseOffsets_length_aux (n : Nat) :
    ∀ l : List Nat, l.length = n → (parseOffsets l).length = l.length / 8 := by
  induction n using Nat.strong_induction_on with
  | _ n ih =>
    intro l hl
    by_cases h : 8 ≤ l.length
    · rw [parseOffsets_eq_cons l h, List.length_cons,
        ih ((l.drop 8).length) (by simp [List.length_drop]; omega) (l.drop 8) rfl,
        List.length_drop]
      omega
    · rw [parseOffsets_short l (by omega)]
      simp only [List.length_nil]
      omega

theorem parseOffsets_length (l : List Nat) : (parseOffsets l).length = l.length / 8 :=
  parseOffsets_length_aux l.length l rfl

/-- C10: for any file that `FileContainer::open` accepts with at least one
entry, the optimized cover loader `load_image_bytes` (16-byte header read,
then one seek and one payload read) returns exactly the same bytes as the
full reader would via `read_at(0)` — the cover is logical entry 0. -/
theorem cover_loader_refines_read_at (p : List Nat) (c : FileContainer)
    (h : FileContainer.openc p = some c) (hlen : 0 < c.len) :
    load_image_bytes p = c.read_at 0 := by
  unfold FileContainer.openc at h
  cases hr8 : readBytesAt p 0 8 with
  | none => rw [hr8] at h; simp at h
  | some buf =>
  rw [hr8] at h
  dsimp only at h
  have hp8 : 8 ≤ p.length := by
    by_contra hc
    simp only [readBytesAt] at hr8
    rw [if_neg (by omega)] at hr8
    cases hr8
  have hbuf : buf = p.take 8 := by
    simp only [readBytesAt, List.drop_zero] at hr8
    rw [if_pos (by omega)] at hr8
    exact (Option.some.inj hr8).symm
  subst hbuf
  have htt : (p.take 8).take 4 = p.take 4 := by
    simp [List.take_take]
  by_cases hmagic : p.take 4 = ofcMagic
  swap
  · rw [htt] at h
    rw [if_neg hmagic] at h
    cases h
  rw [htt, if_pos hmagic] at h
  simp only [readBytesAt] at h
  by_cases hpN : 8 + 8 * leVal ((p.take 8).drop 4) ≤ p.length
  swap
  · rw [if_neg (by omega)] at h
    cases h
  rw [if_pos (by omega)] at h
  have hc : c = ⟨p, parseOffsets ((p.drop 8).take (8 * leVal ((p.take 8).drop 4)))⟩ :=
    (Option.some.inj h).symm
  subst hc
  have hn8 : ((p.drop 8).take (8 * leVal ((p.take 8).drop 4))).length =
      8 * leVal ((p.take 8).drop 4) := by
    rw [List.length_take, List.length_drop]
    omega
  have hclen : (FileContainer.mk p
      (parseOffsets ((p.drop 8).take (8 * leVal ((p.take 8).drop 4))))).len =
      leVal ((p.take 8).drop 4) := by
    simp only [FileContainer.len, parseOffsets_length, hn8]
    omega
  rw [hclen] at hlen
  have hp16 : 16 ≤ p.length := by omega
  -- both sides reduce to the same readBytesAt call
  have hfirst : (parseOffsets ((p.drop 8).take (8 * leVal ((p.take 8).drop 4)))).getD 0 0 =
      leVal ((p.drop 8).take 8) := by
    rw [parseOffsets_eq_cons _ (by rw [hn8]; omega), List.getD_cons_zero, List.take_take]
    congr 2
    omega
  have hrhs : FileContainer.read_at
      ⟨p, parseOffsets ((p.drop 8).take (8 * leVal ((p.take 8).drop 4)))⟩ 0 =
      readBytesAt p (8 + 8 * leVal ((p.take 8).drop 4)) (leVal ((p.drop 8).take 8)) := by
    rw [FileContainer.read_at, if_pos (by rw [hclen]; omega)]
    rw [if_pos rfl, hclen, hfirst]
  rw [hrhs]
  unfold load_image_bytes
  have hr16 : readBytesAt p 0 16 = some (p.take 16) := by
    simp only [readBytesAt, List.drop_zero]
    rw [if_pos (by omega)]
  rw [hr16]
  dsimp only
  have htt16 : (p.take 16).take 4 = p.take 4 := by
    simp [List.take_take]
  rw [htt16, if_pos hmagic]
  have hnum : ((p.take 16).drop 4).take 4 = (p.take 8).drop 4 := by
    simp [List.drop_take, List.take_take]
  have hend : (p.take 16).drop 8 = (p.drop 8).take 8 := by
    simp [List.drop_take]
  rw [hnum, hend]

/-- C10 witness: the refinement instantiated on a concrete two-entry
container with payload sizes 1 and 1. -/
theorem cover_loader_refines_read_at_witness :
    FileContainer.openc (buildContainer [[7], [9]]) =
        some ⟨buildContainer [[7], [9]], [1, 2]⟩ ∧
      0 < (FileContainer.mk (buildContainer [[7], [9]]) [1, 2]).len ∧
      load_image_bytes (buildContainer [[7], [9]]) =
        (FileContainer.mk (buildContainer [[7], [9]]) [1, 2]).read_at 0 :=
  ⟨by decide, by decide,
    cover_loader_refines_read_at (buildContainer [[7], [9]])
      ⟨buildContainer [[7], [9]], [1, 2]⟩ (by decide) (by decide)⟩

/-- Two concrete container files with 3 and 2 entries, driving the
concrete navigation runs. -/
def demoPaths : List (List Nat) :=
  [buildContainer [[1], [2], [3]], buildContainer [[4], [5]]]

/-- Position view (container index, entry index) of a navigation state. -/
def posView (s : State) : Nat × Nat :=
  (s.pathIndex, s.entryIndex)

/-- Boolean check of the full C3 navigation trace over `demoPaths`: four
`next_image` steps visit (0,1), (0,2), (1,0), (1,1), the fifth leaves the
whole state unchanged; from (1,1) four `previous_image` steps visit (1,0),
(0,2), (0,1), (0,0), the fifth leaves the whole state unchanged. -/
def navSequenceCheck : Bool :=
  match State.new demoPaths with
  | none => false
  | some s0 =>
    let t1 := stepOr State.next_image s0
    let t2 := stepOr State.next_image t1
    let t3 := stepOr State.next_image t2
    let t4 := stepOr State.next_image t3
    let t5 := stepOr State.next_image t4
    let p1 := stepOr State.previous_image t4
    let p2 := stepOr State.previous_image p1
    let p3 := stepOr State.previous_image p2
    let p4 := stepOr State.previous_image p3
    let p5 := stepOr State.previous_image p4
    posView s0 == (0, 0) && posView t1 == (0, 1) && posView t2 == (0, 2) &&
      posView t3 == (1, 0) && posView t4 == (1, 1) && t5 == t4 &&
      posView p1 == (1, 0) && posView p2 == (0, 2) && posView p3 == (0, 1) &&
      posView p4 == (0, 0) && p5 == p4

/-- C3: over two containers with 3 and 2 entries, starting at (0,0), the
four `next_image` calls yield (0,1), (0,2), (1,0), (1,1) and a fifth is a
no-op; from (1,1) four `previous_image` calls return through (1,0), (0,2),
(0,1) to (0,0) and a fifth is a no-op. -/
theorem nav_trace_3_2 : navSequenceCheck = true := by decide

/-- Paths used by the open-failure runs: a well-formed single-entry
container followed by an 8-byte file whose magic is wrong, so opening the
second archive fails. -/
def cexPaths : List (List Nat) :=
  [buildContainer [[1]], [0, 0, 0, 0, 0, 0, 0, 0]]

/-- Boolean check that `next_image` over `cexPaths`, at the last entry of
container 0, hits a failed open whose recorded panic state has the
container index already advanced to 1 (while the open container and entry
index still hold their old values): the failed transition is observed
half-applied, not rolled back, and no error value is returned. -/
def atomicityCheck : Bool :=
  match State.new cexPaths with
  | none => false
  | some s0 =>
    match s0.next_image with
    | .error s1 =>
        s1.pathIndex == 1 && s0.pathIndex == 0 &&
          s1.file == s0.file && s1.entryIndex == s0.entryIndex
    | .ok _ => false

/-- C2 counterexample: on `cexPaths` the open of the target archive fails
and at that point the state is half-applied (path index already moved), so
the transition is neither atomic nor surfaced as an error value. -/
theorem open_failure_not_atomic : atomicityCheck = true := by decide

/-- C2 amended: when a transition must open a different archive and that
open fails, the source panics instead of returning an error, and at the
moment of the panic the path index has already been moved by one, while
the open container and the entry index still hold their previous values —
the state is half-applied, not preserved. One conjunct per operation. -/
theorem open_failure_panics_half_applied :
    (∀ s : State, s.entryIndex = s.file.len - 1 → ¬ s.pathIndex = s.paths.length - 1 →
      FileContainer.openc (s.paths.getD (s.pathIndex + 1) []) = none →
      s.next_image = .error { s with pathIndex := s.pathIndex + 1 }) ∧
    (∀ s : State, s.entryIndex = 0 → ¬ s.pathIndex = 0 →
      FileContainer.openc (s.paths.getD (s.pathIndex - 1) []) = none →
      s.previous_image = .error { s with pathIndex := s.pathIndex - 1 }) ∧
    (∀ s : State, ¬ s.pathIndex = 0 →
      FileContainer.openc (s.paths.getD (s.pathIndex - 1) []) = none →
      s.next_file = .error { s with pathIndex := s.pathIndex - 1 }) ∧
    (∀ s : State, ¬ s.pathIndex = s.paths.length - 1 →
      FileContainer.openc (s.paths.getD (s.pathIndex + 1) []) = none →
      s.previous_file = .error { s with pathIndex := s.pathIndex + 1 }) := by
  refine ⟨fun s h1 h2 h3 => ?_, fun s h1 h2 h3 => ?_,
    fun s h1 h2 => ?_, fun s h1 h2 => ?_⟩
  · rw [State.next_image, if_pos h1, if_neg h2]
    dsimp only
    rw [h3]
  · rw [State.previous_image, if_pos h1, if_neg h2]
    dsimp only
    rw [h3]
  · rw [State.next_file, if_neg h1]
    dsimp only
    rw [h2]
  · rw [State.previous_file, if_neg h1]
    dsimp only
    rw [h2]

/-- The concrete state at container 0, entry 0 over `cexPaths`. -/
def cexState : State :=
  { paths := cexPaths, pathIndex := 0,
    file := { f := buildContainer [[1]], end_offsets := [1] },
    entryIndex := 0, show_progress := false }

/-- C2 amended witness: the panic-with-advanced-index behavior
instantiated at `cexState`. -/
theorem open_failure_panics_half_applied_witness :
    cexState.entryIndex = cexState.file.len - 1 ∧
      ¬ cexState.pathIndex = cexState.paths.length - 1 ∧
      FileContainer.openc (cexState.paths.getD (cexState.pathIndex + 1) []) = none ∧
      cexState.next_image = .error { cexState with pathIndex := cexState.pathIndex + 1 } :=
  ⟨by decide, by decide, by decide,
    open_failure_panics_half_applied.1 cexState (by decide) (by decide) (by decide)⟩

theorem mem_getD (l : List (List Nat)) (i : Nat) (h : i < l.length) : l.getD i [] ∈ l := by
  rw [List.getD_eq_getElem _ _ h]
  exact List.getElem_mem h

/-- The navigation invariants of the spec: the path index is in range, the
entry index is below the length of the open container, and the open
container is the one obtained by opening the current path. -/
def Inv (s : State) : Prop :=
  s.pathIndex < s.paths.length ∧
    s.entryIndex < s.file.len ∧
    FileContainer.openc (s.paths.getD s.pathIndex []) = some s.file

/-- Every path names a well-formed, non-empty container: opening succeeds
and the result has at least one entry. -/
def GoodPaths (paths : List (List Nat)) : Prop :=
  ∀ p ∈ paths, ∃ c, FileContainer.openc p = some c ∧ 0 < c.len

theorem next_image_preserves (s : State) (hg : GoodPaths s.paths) (hinv : Inv s) :
    ∃ t, s.next_image = .ok t ∧ Inv t ∧ t.paths = s.paths := by
  obtain ⟨hp, he, hopen⟩ := hinv
  rw [State.next_image]
  by_cases h1 : s.entryIndex = s.file.len - 1
  · rw [if_pos h1]
    by_cases h2 : s.pathIndex = s.paths.length - 1
    · rw [if_pos h2]
      exact ⟨s, rfl, ⟨hp, he, hopen⟩, rfl⟩
    · rw [if_neg h2]
      have hlt : s.pathIndex + 1 < s.paths.length := by omega
      obtain ⟨c, hc, hclen⟩ := hg _ (mem_getD s.paths (s.pathIndex + 1) hlt)
      dsimp only
      rw [hc]
      exact ⟨_, rfl, ⟨hlt, hclen, hc⟩, rfl⟩
  · rw [if_neg h1]
    have hlt : s.entryIndex + 1 < s.file.len := by omega
    exact ⟨_, rfl, ⟨hp, hlt, hopen⟩, rfl⟩

theorem previous_image_preserves (s : State) (hg : GoodPaths s.paths) (hinv : Inv s) :
    ∃ t, s.previous_image = .ok t ∧ Inv t ∧ t.paths = s.paths := by
  obtain ⟨hp, he, hopen⟩ := hinv
  rw [State.previous_image]
  by_cases h1 : s.entryIndex = 0
  · rw [if_pos h1]
    by_cases h2 : s.pathIndex = 0
    · rw [if_pos h2]
      exact ⟨s, rfl, ⟨hp, he, hopen⟩, rfl⟩
    · rw [if_neg h2]
      have hlt : s.pathIndex - 1 < s.paths.length := by omega
      obtain ⟨c, hc, hclen⟩ := hg _ (mem_getD s.paths (s.pathIndex - 1) hlt)
      dsimp only
      rw [hc]
      exact ⟨_, rfl, ⟨hlt, show c.len - 1 < c.len by omega, hc⟩, rfl⟩
  · rw [if_neg h1]
    exact ⟨_, rfl, ⟨hp, show s.entryIndex - 1 < s.file.len by omega, hopen⟩, rfl⟩

theorem next_file_preserves (s : State) (hg : GoodPaths s.paths) (hinv : Inv s) :
    ∃ t, s.next_file = .ok t ∧ Inv t ∧ t.paths = s.paths := by
  obtain ⟨hp, he, hopen⟩ := hinv
  rw [State.next_file]
  by_cases h1 : s.pathIndex = 0
  · rw [if_pos h1]
    exact ⟨s, rfl, ⟨hp, he, hopen⟩, rfl⟩
  · rw [if_neg h1]
    have hlt : s.pathIndex - 1 < s.paths.length := by omega
    obtain ⟨c, hc, hclen⟩ := hg _ (mem_getD s.paths (s.pathIndex - 1) hlt)
    dsimp only
    rw [hc]
    exact ⟨_, rfl, ⟨hlt, hclen, hc⟩, rfl⟩

theorem previous_file_preserves (s : State) (hg : GoodPaths s.paths) (hinv : Inv s) :
    ∃ t, s.previous_file = .ok t ∧ Inv t ∧ t.paths = s.paths := by
  obtain ⟨hp, he, hopen⟩ := hinv
  rw [State.previous_file]
  by_cases h1 : s.pathIndex = s.paths.length - 1
  · rw [if_pos h1]
    exact ⟨s, rfl, ⟨hp, he, hopen⟩, rfl⟩
  · rw [if_neg h1]
    have hlt : s.pathIndex + 1 < s.paths.length := by omega
    obtain ⟨c, hc, hclen⟩ := hg _ (mem_getD s.paths (s.pathIndex + 1) hlt)
    dsimp only
    rw [hc]
    exact ⟨_, rfl, ⟨hlt, hclen, hc⟩, rfl⟩

/-- C4: for a state built from a non-empty list of paths to well-formed,
non-empty containers, `State::new` establishes the three invariants, and
every navigation operation succeeds and preserves them, while
`current_image_bytes` leaves the logical state untouched. -/
theorem nav_invariants_preserved :
    (∀ paths : List (List Nat), GoodPaths paths → paths ≠ [] →
      ∃ s0, State.new paths = some s0 ∧ Inv s0 ∧ s0.paths = paths) ∧
    (∀ s : State, GoodPaths s.paths → Inv s →
      (∃ t, s.next_image = .ok t ∧ Inv t ∧ t.paths = s.paths) ∧
      (∃ t, s.previous_image = .ok t ∧ Inv t ∧ t.paths = s.paths) ∧
      (∃ t, s.next_file = .ok t ∧ Inv t ∧ t.paths = s.paths) ∧
      (∃ t, s.previous_file = .ok t ∧ Inv t ∧ t.paths = s.paths) ∧
      s.current_image_bytes.2 = s) := by
  constructor
  · intro paths hg hne
    have h0 : 0 < paths.length := List.length_pos.mpr hne
    obtain ⟨c, hc, hclen⟩ := hg _ (mem_getD paths 0 h0)
    refine ⟨State.mk paths 0 c 0 false, ?_, ⟨h0, hclen, hc⟩, rfl⟩
    rw [State.new, hc]
    rfl
  · intro s hg hinv
    exact ⟨next_image_preserves s hg hinv, previous_image_preserves s hg hinv,
      next_file_preserves s hg hinv, previous_file_preserves s hg hinv, rfl⟩

theorem goodPaths_demo : GoodPaths demoPaths := by
  intro p hp
  simp only [demoPaths, List.mem_cons, List.not_mem_nil, or_false] at hp
  rcases hp with rfl | rfl
  · exact ⟨⟨buildContainer [[1], [2], [3]], [1, 2, 3]⟩, by decide, by decide⟩
  · exact ⟨⟨buildContainer [[4], [5]], [1, 2]⟩, by decide, by decide⟩

/-- The initial concrete state over `demoPaths`. -/
def demoState0 : State :=
  { paths := demoPaths, pathIndex := 0,
    file := ⟨buildContainer [[1], [2], [3]], [1, 2, 3]⟩,
    entryIndex := 0, show_progress := false }

/-- C4 witness: construction and one preservation step instantiated over
`demoPaths`. -/
theorem nav_invariants_preserved_witness :
    GoodPaths demoPaths ∧ demoPaths ≠ [] ∧
      (∃ s0, State.new demoPaths = some s0 ∧ Inv s0 ∧ s0.paths = demoPaths) ∧
      (∃ t, demoState0.next_image = .ok t ∧ Inv t ∧ t.paths = demoState0.paths) :=
  ⟨goodPaths_demo, by decide,
    nav_invariants_preserved.1 demoPaths goodPaths_demo (by decide),
    (nav_invariants_preserved.2 demoState0 goodPaths_demo
      ⟨by decide, by decide, by decide⟩).1⟩

/-- C5: each direct container jump is either a no-op at the end it moves
toward, or moves the container index by exactly one, opens the container
at the new path and resets the entry index to 0 — in both directions (in
the source, `next_file` moves the path index down and `previous_file`
moves it up; the spec records this swap as intentional). -/
theorem file_jump_behavior (s : State) (hg : GoodPaths s.paths) (hinv : Inv s) :
    ((s.pathIndex = 0 → s.next_file = .ok s) ∧
      (¬ s.pathIndex = 0 → ∃ t, s.next_file = .ok t ∧
        t.pathIndex = s.pathIndex - 1 ∧ t.entryIndex = 0 ∧ t.paths = s.paths ∧
        FileContainer.openc (s.paths.getD (s.pathIndex - 1) []) = some t.file)) ∧
    ((s.pathIndex = s.paths.length - 1 → s.previous_file = .ok s) ∧
      (¬ s.pathIndex = s.paths.length - 1 → ∃ t, s.previous_file = .ok t ∧
        t.pathIndex = s.pathIndex + 1 ∧ t.entryIndex = 0 ∧ t.paths = s.paths ∧
        FileContainer.openc (s.paths.getD (s.pathIndex + 1) []) = some t.file)) := by
  obtain ⟨hp, he, hopen⟩ := hinv
  refine ⟨⟨fun h1 => ?_, fun h1 => ?_⟩, ⟨fun h1 => ?_, fun h1 => ?_⟩⟩
  · rw [State.next_file, if_pos h1]
  · rw [State.next_file, if_neg h1]
    have hlt : s.pathIndex - 1 < s.paths.length := by omega
    obtain ⟨c, hc, hclen⟩ := hg _ (mem_getD s.paths (s.pathIndex - 1) hlt)
    dsimp only
    rw [hc]
    exact ⟨_, rfl, rfl, rfl, rfl, rfl⟩
  · rw [State.previous_file, if_pos h1]
  · rw [State.previous_file, if_neg h1]
    have hlt : s.pathIndex + 1 < s.paths.length := by omega
    obtain ⟨c, hc, hclen⟩ := hg _ (mem_getD s.paths (s.pathIndex + 1) hlt)
    dsimp only
    rw [hc]
    exact ⟨_, rfl, rfl, rfl, rfl, rfl⟩

/-- C5 witness: over `demoPaths` at container 0, `next_file` is a no-op
(it moves toward index 0) and `previous_file` moves to container 1 with
entry index 0. -/
theorem file_jump_behavior_witness :
    GoodPaths demoState0.paths ∧ Inv demoState0 ∧
      demoState0.next_file = .ok demoState0 ∧
      (∃ t, demoState0.previous_file = .ok t ∧
        t.pathIndex = demoState0.pathIndex + 1 ∧ t.entryIndex = 0 ∧
        t.paths = demoState0.paths ∧
        FileContainer.openc (demoState0.paths.getD (demoState0.pathIndex + 1) []) =
          some t.file) :=
  ⟨goodPaths_demo, ⟨by decide, by decide, by decide⟩,
    (file_jump_behavior demoState0 goodPaths_demo
      ⟨by decide, by decide, by decide⟩).1.1 (by decide),
    (file_jump_behavior demoState0 goodPaths_demo
      ⟨by decide, by decide, by decide⟩).2.2 (by decide)⟩

/-- C6 counterexample: rendering the progress indicator with `len = 0` is
not well-defined — the unguarded division `index * 10 / len` panics in
Rust, modelled as `none`. -/
theorem render_progress_faults_at_zero : renderProgressDots 0 0 = none := rfl

/-- C6 amended: `render_progress` divides `index * 10` by `len`
without any `len == 0` check, so at `len = 0` the Rust division panics
(the `none` below is the panic semantics of `/`, not a guard in the
source); for every positive `len` the dot count is `index * 10 / len`. -/
theorem render_progress_division_by_zero :
    renderProgressDots 0 0 = none ∧
      ∀ index len : Nat, 0 < len → renderProgressDots index len = some (index * 10 / len) := by
  refine ⟨rfl, fun index len h => ?_⟩
  rw [renderProgressDots, if_neg (by omega)]

/-- C6 helper witness: the positive-length formula instantiated
concretely (entry 3 of 5 shows 6 of 10 dots). -/
theorem render_progress_division_by_zero_witness :
    (0 : Nat) < 5 ∧ renderProgressDots 3 5 = some 6 :=
  ⟨by decide, (render_progress_division_by_zero.2 3 5 (by decide)).trans (by decide)⟩

/-- C7: a click at `(x, y)` in viewport `(w, h)` toggles exactly the entry
at `flat = page_index * 12 + (row * 4 + col)` when it exists — its
selected flag is negated, its path and every other entry, the list length
and the page index are unchanged — and does nothing when `flat` is out of
range; and concretely a click at (150, 120) in a 400×300 viewport lands
on column 1, row 1, index-in-page 5. -/
theorem click_toggles_computed_entry :
    (∀ (s : SelScreen) (x y : ℚ) (w h : Int),
      (s.on_click x y w h).page_index = s.page_index ∧
      (s.on_click x y w h).ofcs.length = s.ofcs.length ∧
      (∀ j, ¬ j = s.clickIndex x y w h →
        (s.on_click x y w h).ofcs.getD j ⟨0, false⟩ = s.ofcs.getD j ⟨0, false⟩) ∧
      (s.clickIndex x y w h < s.ofcs.length →
        ((s.on_click x y w h).ofcs.getD (s.clickIndex x y w h) ⟨0, false⟩).path =
          (s.ofcs.getD (s.clickIndex x y w h) ⟨0, false⟩).path ∧
        ((s.on_click x y w h).ofcs.getD (s.clickIndex x y w h) ⟨0, false⟩).selected =
          !(s.ofcs.getD (s.clickIndex x y w h) ⟨0, false⟩).selected) ∧
      (s.ofcs.length ≤ s.clickIndex x y w h → s.on_click x y w h = s)) ∧
    clickCol 150 400 = 1 ∧ clickRow 120 300 = 1 ∧
      clickRow 120 300 * (NUM_COLUMNS).toNat + clickCol 150 400 = 5 := by
  constructor
  · intro s x y w h
    cases hq : s.ofcs[s.clickIndex x y w h]? with
    | none =>
      have hlen : s.ofcs.length ≤ s.clickIndex x y w h := List.getElem?_eq_none_iff.mp hq
      have hclick : s.on_click x y w h = s := by
        rw [SelScreen.on_click, hq]
      refine ⟨by rw [hclick], by rw [hclick], fun j hj => by rw [hclick],
        fun hlt => absurd hlt (by omega), fun hle => hclick⟩
    | some ofc =>
      obtain ⟨hlt, hget⟩ := List.getElem?_eq_some_iff.mp hq
      have hclick : s.on_click x y w h =
          SelScreen.mk (s.ofcs.set (s.clickIndex x y w h) (Ofc.mk ofc.path (!ofc.selected)))
            s.page_index := by
        rw [SelScreen.on_click, hq]
      have hgetD : s.ofcs.getD (s.clickIndex x y w h) ⟨0, false⟩ = ofc := by
        rw [List.getD_eq_getElem?_getD, hq]
        rfl
      refine ⟨by rw [hclick], by rw [hclick]; exact List.length_set _ _ _,
        fun j hj => ?_, fun _ => ?_, fun hle => absurd hlt (by omega)⟩
      · rw [hclick]
        dsimp only
        rw [List.getD_eq_getElem?_getD, List.getD_eq_getElem?_getD,
          List.getElem?_set_ne (fun hc => hj hc.symm)]
      · rw [hclick]
        dsimp only
        rw [List.getD_eq_getElem?_getD, List.getElem?_set_self hlt, hgetD]
        exact ⟨rfl, rfl⟩
  · refine ⟨?_, ?_, ?_⟩
    · norm_num [clickCol, NUM_COLUMNS]
    · norm_num [clickRow, NUM_ROWS]
    · norm_num [clickCol, clickRow, NUM_COLUMNS, NUM_ROWS]
      decide

/-- C7 witness: the click behavior instantiated on a concrete two-entry
screen where the computed flat index (5) is out of range, and the
concrete (150, 120) in 400×300 arithmetic. -/
theorem click_toggles_computed_entry_witness :
    ((SelScreen.mk [⟨0, false⟩, ⟨1, false⟩] 0).ofcs.length ≤
        (SelScreen.mk [⟨0, false⟩, ⟨1, false⟩] 0).clickIndex 150 120 400 300 →
      (SelScreen.mk [⟨0, false⟩, ⟨1, false⟩] 0).on_click 150 120 400 300 =
        SelScreen.mk [⟨0, false⟩, ⟨1, false⟩] 0) ∧
    clickCol 150 400 = 1 :=
  ⟨((click_toggles_computed_entry.1 (SelScreen.mk [⟨0, false⟩, ⟨1, false⟩] 0)
      150 120 400 300).2.2.2.2),
    click_toggles_computed_entry.2.1⟩

theorem page_size_eq : SelScreen.page_size = 12 := rfl

/-- C8: `page_count` is the ceiling of `total / 12` (stated as the Galois
characterization of the ceiling: `page_count ≤ m` exactly when the entries
fit in `m` pages), and on any screen whose page index satisfies the page
invariant, `next_page` and `previous_page` clamp the page index to
`[0, page_count - 1]`, moving by one inside the range and standing still
at either end. -/
theorem page_clamping :
    (∀ (s : SelScreen) (m : Nat),
      s.page_count ≤ m ↔ s.ofcs.length ≤ SelScreen.page_size * m) ∧
    (∀ s : SelScreen, s.page_index < s.page_count →
      (s.next_page.page_index < s.page_count ∧
        (s.page_index = s.page_count - 1 → s.next_page = s) ∧
        (s.page_index + 1 < s.page_count → s.next_page.page_index = s.page_index + 1) ∧
        s.next_page.ofcs = s.ofcs) ∧
      (s.previous_page.page_index < s.page_count ∧
        (s.page_index = 0 → s.previous_page = s) ∧
        (0 < s.page_index → s.previous_page.page_index = s.page_index - 1) ∧
        s.previous_page.ofcs = s.ofcs)) := by
  constructor
  · intro s m
    rw [SelScreen.page_count, page_size_eq]
    omega
  · intro s hs
    refine ⟨⟨?_, fun h1 => ?_, fun h1 => ?_, rfl⟩, ⟨?_, fun h1 => ?_, fun h1 => ?_, rfl⟩⟩
    · rw [SelScreen.next_page]
      dsimp only
      omega
    · have hmin : min (s.page_index + 1) (s.page_count - 1) = s.page_index := by omega
      rw [SelScreen.next_page, hmin]
    · rw [SelScreen.next_page]
      dsimp only
      omega
    · rw [SelScreen.previous_page]
      dsimp only
      omega
    · have hsub : s.page_index - 1 = s.page_index := by omega
      rw [SelScreen.previous_page, hsub]
    · rw [SelScreen.previous_page]

/-- The thirteen-entry screen at page 1 of the C8 concrete case. -/
def screen13 : SelScreen :=
  SelScreen.mk (List.replicate 13 ⟨0, false⟩) 1

/-- The thirteen-entry screen at page 0 of the C8 concrete case. -/
def screen13a : SelScreen :=
  SelScreen.mk (List.replicate 13 ⟨0, false⟩) 0

/-- C8 witness: with 13 entries `page_count = 2`, `next_page` from page 1
is a no-op and `previous_page` from page 0 is a no-op. -/
theorem page_clamping_witness :
    screen13.page_count = 2 ∧
      screen13.page_index < screen13.page_count ∧
      screen13.next_page = screen13 ∧
      screen13a.previous_page = screen13a :=
  ⟨by decide, by decide,
    (page_clamping.2 screen13 (by decide)).1.2.1 (by decide),
    (page_clamping.2 screen13a (by decide)).2.2.1 (by decide)⟩

/-- C9: sniffing tests JPEG first, then PNG, then WebP; the WebP branch is
entered only when the buffer is longer than 14 bytes, a bound under which
the `bytes[8..14]` slice is always in range (no out-of-bounds read); any
shorter buffer that is neither JPEG nor PNG fails as unsupported — in
particular the 7-byte RIFF buffer — and `FF D8 FF E0` is JPEG. -/
theorem format_sniffing :
    (∀ b : List Nat, b.take 3 = jpegSig → classify b = some ImageFormat.jpeg) ∧
    (∀ b : List Nat, ¬ b.take 3 = jpegSig → b.take 8 = pngSig →
      classify b = some ImageFormat.png) ∧
    (∀ b : List Nat, classify b = some ImageFormat.webp →
      14 < b.length ∧ b.take 4 = riffSig ∧ sliceAt b 8 6 = some webpSig) ∧
    (∀ b : List Nat, 14 < b.length → (sliceAt b 8 6).isSome) ∧
    (∀ b : List Nat, b.length < 15 → ¬ b.take 3 = jpegSig → ¬ b.take 8 = pngSig →
      classify b = none) ∧
    classify [255, 216, 255, 224] = some ImageFormat.jpeg ∧
    classify [82, 73, 70, 70, 87, 69, 66] = none := by
  refine ⟨fun b hj => ?_, fun b hj hp => ?_, fun b hw => ?_, fun b hl => ?_,
    fun b hl hj hp => ?_, by decide, by decide⟩
  · rw [classify, if_pos hj]
  · rw [classify, if_neg hj, if_pos hp]
  · rw [classify] at hw
    by_cases h1 : b.take 3 = jpegSig
    · rw [if_pos h1] at hw
      exact absurd hw (by decide)
    rw [if_neg h1] at hw
    by_cases h2 : b.take 8 = pngSig
    · rw [if_pos h2] at hw
      exact absurd hw (by decide)
    rw [if_neg h2] at hw
    by_cases h3 : 14 < b.length ∧ b.take 4 = riffSig ∧ sliceAt b 8 6 = some webpSig
    · exact h3
    rw [if_neg h3] at hw
    exact absurd hw (by decide)
  · rw [sliceAt, if_pos (by omega)]
    rfl
  · rw [classify, if_neg hj, if_neg hp, if_neg (fun hc => absurd hc.1 (by omega))]

/-- C9 witness: the priority and guard facts instantiated on the concrete
JPEG buffer and a 15-byte buffer for the in-bounds slice. -/
theorem format_sniffing_witness :
    ([255, 216, 255, 224] : List Nat).take 3 = jpegSig ∧
      classify [255, 216, 255, 224] = some ImageFormat.jpeg ∧
      14 < ([0, 1, 2, 3, 4, 5, 6, 7, 8, 9, 10, 11, 12, 13, 14] : List Nat).length ∧
      (sliceAt [0, 1, 2, 3, 4, 5, 6, 7, 8, 9, 10, 11, 12, 13, 14] 8 6).isSome :=
  ⟨by decide, format_sniffing.1 [255, 216, 255, 224] (by decide), by decide,
    format_sniffing.2.2.2.1 [0, 1, 2, 3, 4, 5, 6, 7, 8, 9, 10, 11, 12, 13, 14] (by decide)⟩

end Gallery
